import Mathlib

/-!
Verification of the static-analysis core of the JavaScript endpoint scanner
(`src/core/extract.js`): the endpoint recognizer / URL template builder, the
taint analyzer, the deduplicator and the AST traversal.  Every definition below
is a shallow embedding of the corresponding JavaScript function; machine
strings are Lean `String`s, JavaScript `Map`s are insertion-ordered association
lists, and absent (`undefined`) fields are `Option`/default values.
-/

set_option maxRecDepth 10000

/-! ## JavaScript string primitives

The source uses `String.prototype.includes`, `split`, `join`, `endsWith` and
`slice(0, -1)`.  We embed them structurally over `List Char` so that every
definition reduces in the kernel. -/

/-- JS `hay.includes(needle)`: substring test (`''` is contained in anything). -/
def containsSub (hay needle : List Char) : Bool :=
  needle.isPrefixOf hay ||
    match hay with
    | [] => false
    | _ :: t => containsSub t needle

/-- JS `s.includes(pat)` on `String`. -/
def strIncludes (s pat : String) : Bool :=
  containsSub s.toList pat.toList

/-- JS `String.prototype.split(sep)` over a character list (split on a single
character separator; `''.split(sep)` yields `['']`). -/
def splitOnChar (sep : Char) : List Char → List (List Char)
  | [] => [[]]
  | c :: t =>
    let rest := splitOnChar sep t
    if c == sep then [] :: rest
    else
      match rest with
      | [] => [[c]]
      | h :: t2 => (c :: h) :: t2

/-- JS `s.split(sep)` on `String`. -/
def jsSplit (s : String) (sep : Char) : List String :=
  (splitOnChar sep s.toList).map (fun l => String.mk l)

/-- JS `parts.join(sep)`. -/
def joinWith (sep : String) : List String → String
  | [] => ""
  | [x] => x
  | x :: y :: xs => x ++ sep ++ joinWith sep (y :: xs)

/-- JS `s.endsWith(c)` for a one-character suffix. -/
def strEndsWithChar (s : String) (c : Char) : Bool :=
  match s.toList.getLast? with
  | some x => x == c
  | none => false

/-- JS `s.slice(0, -1)`: drop the last character. -/
def strDropLast (s : String) : String :=
  String.mk s.toList.dropLast

/-- JS string truthiness: the empty string is falsy. -/
def strTruthy (s : String) : Bool :=
  !s.toList.isEmpty

/-! ## URL parameterization (`EndpointVisitor.parameterizeURL` /
`EndpointVisitor.inferParameterName`) -/

/-- One entry of the `parameters` array pushed by `parameterizeURL`. -/
structure Parameter where
  name : String
  location : String
  param_type : String
  required : Bool
  deriving Repr, DecidableEq

/-- `/^\d+$/`: one or more ASCII digits. -/
def isNumericSeg (seg : String) : Bool :=
  !seg.toList.isEmpty && seg.toList.all Char.isDigit

/-- `/^[a-f0-9-]{36}$/`: exactly 36 characters drawn from `a`-`f`, digits, `-`. -/
def isUUIDSeg (seg : String) : Bool :=
  seg.toList.length == 36 &&
    seg.toList.all (fun c => c.isDigit || ('a' ≤ c && c ≤ 'f') || c == '-')

/-- `EndpointVisitor.inferParameterName(segments, index)`:
`users → userId` (strip a trailing `s`, append `Id`), `id` at index 0. -/
def inferParameterName (segments : List String) (index : Nat) : String :=
  if index > 0 then
    let prevSegment := segments.getD (index - 1) ""
    if strEndsWithChar prevSegment 's' then strDropLast prevSegment ++ "Id"
    else prevSegment ++ "Id"
  else "id"

/-- The fold step of `parameterizeURL`'s `segments.map((seg, idx) => ...)`,
accumulating rewritten segments and pushed parameters in order. -/
def paramSegStep (segments : List String) (acc : List String × List Parameter)
    (p : Nat × String) : List String × List Parameter :=
  let idx := p.1
  let seg := p.2
  if isNumericSeg seg then
    let paramName := inferParameterName segments idx
    (acc.1 ++ ["\x7b" ++ paramName ++ "\x7d"],
     acc.2 ++ [{ name := paramName, location := "path", param_type := "integer",
                 required := true }])
  else if isUUIDSeg seg then
    let paramName := inferParameterName segments idx
    (acc.1 ++ ["\x7b" ++ paramName ++ "\x7d"],
     acc.2 ++ [{ name := paramName, location := "path", param_type := "string",
                 required := true }])
  else
    (acc.1 ++ [seg], acc.2)

/-- `EndpointVisitor.parameterizeURL(url)`: split on `/`, replace numeric and
UUID-shaped segments by `{name}` placeholders, return the template and the
parameters pushed along the way. -/
def parameterizeURL (url : String) : String × List Parameter :=
  let segments := jsSplit url '/'
  let r := segments.enum.foldl (paramSegStep segments) ([], [])
  (joinWith "/" r.1, r.2)

/-! ## Member-expression chains (`MExpr`)

SWC expression nodes, restricted to the shapes the analyzer inspects:
identifiers, member accesses and an opaque "anything else" constructor
(a node with no `.value`). -/

inductive MExpr where
  | ident (value : String)
  | member (object : MExpr) (property : MExpr)
  | other
  deriving Repr, DecidableEq

/-- `EndpointVisitor.getMemberExpressionRoot(node)`: walk `node.object` while
it is a member expression, then return the final object's `.value`
(`''` when it is not an identifier — `current.object?.value || ''`). -/
def getMemberExpressionRoot : MExpr → String
  | MExpr.member o _ =>
    match o with
    | MExpr.member o' p' => getMemberExpressionRoot (MExpr.member o' p')
    | MExpr.ident v => v
    | MExpr.other => ""
  | MExpr.ident _ => ""
  | MExpr.other => ""

/-- The fixed suspect-identifier list of `EndpointVisitor.isTaintedExpression`. -/
def taintSources : List String :=
  ["props", "params", "req", "request", "location", "window"]

/-- `EndpointVisitor.isTaintedExpression(node)`: member expressions only; the
root object's name is tested by substring against `taintSources`. -/
def isTaintedExpression (node : MExpr) : Bool :=
  match node with
  | MExpr.member _ _ =>
    taintSources.any (fun src => strIncludes (getMemberExpressionRoot node) src)
  | _ => false

/-- All identifier names appearing in a member chain, root first — the
"root-or-any-segment" reading of the specification (spec wording, for
comparison against `isTaintedExpression`). -/
def chainNames : MExpr → List String
  | MExpr.ident v => [v]
  | MExpr.member o p =>
    chainNames o ++ (match p with | MExpr.ident v => [v] | _ => [])
  | MExpr.other => []

/-- Modelled from the spec sentence for C8: taint_source is true iff the
expression is a property-access chain whose root **or any segment** name
matches the suspect list. -/
def specRootOrAnySegmentTainted (e : MExpr) : Bool :=
  match e with
  | MExpr.member _ _ =>
    taintSources.any (fun src => (chainNames e).any (fun n => strIncludes n src))
  | _ => false

/-! ## Template literals (`EndpointVisitor.parseTemplateLiteral`) -/

/-- One quasi (string part) of a template literal: `.cooked` may be absent. -/
structure Quasi where
  cooked : Option String
  raw : String
  deriving Repr, DecidableEq

/-- A parameter pushed by `parseTemplateLiteral` (carries `taint_source`). -/
structure TemplateParam where
  name : String
  location : String
  param_type : String
  required : Bool
  taint_source : Bool
  deriving Repr, DecidableEq

/-- Result of the URL template builder: `{template, raw, parameters, protocol}`. -/
structure URLBuild where
  template : String
  raw : String
  parameters : List TemplateParam
  protocol : String
  deriving Repr, DecidableEq

/-- JS `quasi.cooked || quasi.raw` (absent or empty `cooked` falls back). -/
def jsOrStr (a : Option String) (b : String) : String :=
  match a with
  | some s => if strTruthy s then s else b
  | none => b

/-- `EndpointVisitor.extractParameterName(node)`: identifier name, member
property name (`node.property?.value`), else the literal token `param`. -/
def extractParameterName : MExpr → String
  | MExpr.ident v => v
  | MExpr.member _ p =>
    match p with
    | MExpr.ident v => v
    | _ => "param"
  | MExpr.other => "param"

/-- Fold step of `parseTemplateLiteral`'s `quasis.forEach((quasi, i) => ...)`:
append the quasi text, then (when an expression exists at this index) splice a
`{name}` placeholder and push one parameter. -/
def tlStep (expressions : List MExpr) (acc : String × List TemplateParam)
    (p : Nat × Quasi) : String × List TemplateParam :=
  let i := p.1
  let quasi := p.2
  let t := acc.1 ++ jsOrStr quasi.cooked quasi.raw
  match expressions.get? i with
  | some expr =>
    let paramName := extractParameterName expr
    (t ++ "\x7b" ++ paramName ++ "\x7d",
     acc.2 ++ [{ name := paramName, location := "path", param_type := "string",
                 required := true, taint_source := isTaintedExpression expr }])
  | none => (t, acc.2)

/-- `EndpointVisitor.parseTemplateLiteral(node)`: note the source sets
`raw: template` — the raw field is the already-parameterized template. -/
def parseTemplateLiteral (quasis : List Quasi) (expressions : List MExpr) :
    URLBuild :=
  let r := quasis.enum.foldl (tlStep expressions) ("", [])
  { template := r.1, raw := r.1, parameters := r.2, protocol := "https" }

/-! ## JavaScript values and header extraction
(`EndpointVisitor.extractHeaders`) -/

/-- Literal JavaScript values as they appear in AST `.value` fields. -/
inductive JSVal where
  | str (s : String)
  | num (n : Int)
  | boolean (b : Bool)
  | null
  deriving Repr, DecidableEq

/-- JS truthiness of a literal value. -/
def JSVal.truthy : JSVal → Bool
  | JSVal.str s => strTruthy s
  | JSVal.num n => n != 0
  | JSVal.boolean b => b
  | JSVal.null => false

/-- Insertion-ordered string-keyed map (JS object / `Map`): `m[k] = v` and
`Map.set` replace in place, otherwise append. -/
def mapSet {α : Type} : List (String × α) → String → α → List (String × α)
  | [], k, v => [(k, v)]
  | kv :: t, k, v =>
    if kv.1 == k then (k, v) :: t else kv :: mapSet t k v

/-- `Map.get` / property lookup. -/
def mapGet {α : Type} : List (String × α) → String → Option α
  | [], _ => none
  | kv :: t, k => if kv.1 == k then some kv.2 else mapGet t k

/-- One property of a `headers` object literal: `prop.key?.value`,
`prop.key?.name`, and the literal value of `prop.value` when there is one. -/
structure HProp where
  keyValue : Option String
  keyName : Option String
  valueLit : Option JSVal
  deriving Repr, DecidableEq

/-- The `headers` argument node: an object literal or anything else. -/
inductive HNode where
  | obj (properties : List HProp)
  | nonObj
  deriving Repr, DecidableEq

/-- JS `a || b` on two possibly-absent strings (falsy `''` falls through). -/
def jsOrStrOpt (a b : Option String) : Option String :=
  match a with
  | some s => if strTruthy s then some s else b
  | none => b

/-- `prop.key?.value || prop.key?.name`. -/
def hpropKey (prop : HProp) : Option String :=
  jsOrStrOpt prop.keyValue prop.keyName

/-- `prop.value?.value || '{dynamic}'`. -/
def hpropValue (prop : HProp) : JSVal :=
  match prop.valueLit with
  | some v => if v.truthy then v else JSVal.str "\x7bdynamic\x7d"
  | none => JSVal.str "\x7bdynamic\x7d"

/-- Body of `extractHeaders`'s `node.properties.forEach(prop => ...)`:
`if (key) headers[key] = value`. -/
def headerStep (headers : List (String × JSVal)) (prop : HProp) :
    List (String × JSVal) :=
  match hpropKey prop with
  | some k => if strTruthy k then mapSet headers k (hpropValue prop) else headers
  | none => headers

/-- `EndpointVisitor.extractHeaders(node)`. -/
def extractHeaders : HNode → List (String × JSVal)
  | HNode.obj props => props.foldl headerStep []
  | HNode.nonObj => []

/-! ## Taint analyzer (`TaintAnalyzer` / `TaintVisitor`) -/

/-- Source positions are irrelevant to every claim; keep them opaque. -/
abbrev Loc := Nat

/-- One record of `TaintAnalyzer.taintState` (absent JS fields are the
defaults: `reachesSink`/`sinkName` are only ever added later by mutation). -/
structure Taint where
  name : String
  isTainted : Bool
  isSource : Bool := false
  sourceName : Option String := none
  operation : Option String := none
  location : Option Loc := none
  dependencies : List String := []
  reachesSink : Bool := false
  sinkName : Option String := none
  deriving Repr, DecidableEq

/-- One edge of `TaintAnalyzer.dataflowEdges` (`from`/`to` renamed: `from` is
a Lean keyword). -/
structure DataflowEdge where
  efrom : String
  eto : String
  operation : String
  location : Option Loc
  deriving Repr, DecidableEq

/-- The mutable per-run state of a `TaintAnalyzer` instance. -/
structure AnalyzerState where
  taintState : List (String × Taint)
  dataflowEdges : List DataflowEdge
  deriving Repr, DecidableEq

/-- The fresh analyzer state (`new TaintAnalyzer()`). -/
def emptyAnalyzer : AnalyzerState := { taintState := [], dataflowEdges := [] }

/-- `TaintAnalyzer.sinks` (a JS `Set`, queried with `.has`). -/
def sinks : List String :=
  ["fetch", "axios", "XMLHttpRequest.open", "document.write", "innerHTML",
   "eval", "Function", "setTimeout", "setInterval", "postMessage"]

/-- JS `!!sourceName` for an optional string argument. -/
def jsTruthyOptStr : Option String → Bool
  | some s => strTruthy s
  | none => false

/-- `TaintAnalyzer.markTainted(varName, sourceName, operation, location)`:
unconditionally replaces the variable's record with a fresh object
(no `reachesSink`/`sinkName` fields, empty `dependencies`). -/
def markTainted (st : AnalyzerState) (varName : String)
    (sourceName : Option String) (operation : String) (location : Option Loc) :
    AnalyzerState :=
  { st with
    taintState := mapSet st.taintState varName
      { name := varName, isTainted := true,
        isSource := jsTruthyOptStr sourceName,
        sourceName := sourceName, operation := some operation,
        location := location, dependencies := [] } }

/-- `TaintAnalyzer.isTainted(varName)` (as a boolean: `taint && taint.isTainted`). -/
def isTainted (st : AnalyzerState) (varName : String) : Bool :=
  match mapGet st.taintState varName with
  | some t => t.isTainted
  | none => false

/-- `TaintAnalyzer.propagateTaint(fromVar, toVar, operation, location)`. -/
def propagateTaint (st : AnalyzerState) (fromVar toVar : String)
    (operation : String) (location : Option Loc) : AnalyzerState :=
  match mapGet st.taintState fromVar with
  | none => st
  | some fromTaint =>
    if !fromTaint.isTainted then st
    else
      let toTaint := (mapGet st.taintState toVar).getD
        { name := toVar, isTainted := false }
      let toTaint' :=
        { toTaint with
          isTainted := true,
          sourceName := fromTaint.sourceName,
          operation := some operation,
          location := location,
          dependencies := toTaint.dependencies ++ [fromVar] }
      { taintState := mapSet st.taintState toVar toTaint',
        dataflowEdges := st.dataflowEdges ++
          [{ efrom := fromVar, eto := toVar, operation := operation,
             location := location }] }

/-- `TaintVisitor.getMemberPath(node)`: dotted parts, root first (the source
builds them with `unshift` while walking `object`). -/
def memberPathParts : MExpr → List String
  | MExpr.ident v => [v]
  | MExpr.member o p =>
    memberPathParts o ++ (match p with | MExpr.ident v => [v] | _ => [])
  | MExpr.other => []

/-- `TaintVisitor.getMemberPath(node)` joined with `.`. -/
def getMemberPath (e : MExpr) : String :=
  joinWith "." (memberPathParts e)

/-- `TaintVisitor.getCalleeName(node)`. -/
def getCalleeName : MExpr → String
  | MExpr.ident v => v
  | MExpr.member o p => getMemberPath (MExpr.member o p)
  | MExpr.other => ""

/-- Body of `TaintVisitor.visitCallExpression`'s argument loop: a
bare-identifier argument that is tainted gets `reachesSink = true` and
`sinkName = calleeName` (in-place mutation of the taint record). -/
def sinkStep (calleeName : String) (s : AnalyzerState) (arg : MExpr) :
    AnalyzerState :=
  match arg with
  | MExpr.ident argVar =>
    if isTainted s argVar then
      match mapGet s.taintState argVar with
      | some t =>
        let t' := { t with reachesSink := true, sinkName := some calleeName }
        { s with taintState := mapSet s.taintState argVar t' }
      | none => s
    else s
  | _ => s

/-- `TaintVisitor.visitCallExpression(node)`: the sink test is
`this.analyzer.sinks.has(calleeName)` — exact membership in the sink set. -/
def visitCallExprTaint (st : AnalyzerState) (callee : MExpr)
    (args : List MExpr) : AnalyzerState :=
  let calleeName := getCalleeName callee
  if sinks.contains calleeName then
    args.foldl (sinkStep calleeName) st
  else st

/-- Observed `reaches_sink` flag of a variable (`undefined` reads as false). -/
def reachesSinkB (st : AnalyzerState) (v : String) : Bool :=
  match mapGet st.taintState v with
  | some t => t.reachesSink
  | none => false

/-- The primitive state-changing operations a run performs on the taint
table, in the analyzer's own vocabulary. -/
inductive TOp where
  | mark (varName : String) (sourceName : Option String) (operation : String)
      (location : Option Loc)
  | prop (fromVar toVar operation : String) (location : Option Loc)
  | call (callee : MExpr) (args : List MExpr)

/-- Apply one operation to the analyzer state. -/
def applyOp (st : AnalyzerState) : TOp → AnalyzerState
  | TOp.mark v s op loc => markTainted st v s op loc
  | TOp.prop f t op loc => propagateTaint st f t op loc
  | TOp.call callee args => visitCallExprTaint st callee args

/-! ## Deduplication (`deduplicateEndpoints`) -/

/-- One `evidence` entry of an endpoint candidate. -/
structure Evidence where
  etype : String
  description : String
  line : Nat
  deriving Repr, DecidableEq

/-- An endpoint candidate, restricted to the fields deduplication reads or
could alter. -/
structure EndpointRecord where
  url_template : String
  url_raw : String
  method : String
  protocol : String
  evidence : List Evidence
  deriving Repr, DecidableEq

/-- The grouping key `` `${ep.method}:${ep.url_template}` ``. -/
def keyOf (ep : EndpointRecord) : String :=
  ep.method ++ ":" ++ ep.url_template

/-- Body of `deduplicateEndpoints`'s `endpoints.forEach(ep => ...)` over the
insertion-ordered `seen` map. -/
def dedupStep (seen : List (String × EndpointRecord)) (ep : EndpointRecord) :
    List (String × EndpointRecord) :=
  let key := keyOf ep
  match mapGet seen key with
  | none => mapSet seen key ep
  | some existing =>
    mapSet seen key { existing with evidence := existing.evidence ++ ep.evidence }

/-- The `seen` map after processing a candidate list. -/
def dedupAcc (endpoints : List EndpointRecord) :
    List (String × EndpointRecord) :=
  endpoints.foldl dedupStep []

/-- `deduplicateEndpoints(endpoints)`: `Array.from(seen.values())`. -/
def deduplicateEndpoints (endpoints : List EndpointRecord) :
    List EndpointRecord :=
  (dedupAcc endpoints).map (fun kv => kv.2)

/-- All evidence entries of a record list, in order (for comparing the merged
evidence contents of two runs). -/
def allEvidence (l : List EndpointRecord) : List Evidence :=
  l.foldr (fun e acc => e.evidence ++ acc) []

/-! ## Confidence scoring (`TaintAnalyzer.calculateConfidence`) -/

/-- One step of a reconstructed flow path (`{variable, operation, location}`;
`operation` may be absent — the source guards with `step.operation?`). -/
structure PathStep where
  varName : String
  operation : Option String
  deriving Repr, DecidableEq

/-- The fixed sanitizer-name list. -/
def sanitizers : List String :=
  ["encodeURIComponent", "escape", "sanitize", "validate"]

/-- `sanitizers.some(s => step.operation?.includes(s))`. -/
def stepSanitized (step : PathStep) : Bool :=
  match step.operation with
  | some op => sanitizers.any (fun s => strIncludes op s)
  | none => false

/-- `TaintAnalyzer.calculateConfidence(path)`: `1.0 * exp(-0.1 * length)`,
multiplied by `0.3` for each sanitized step, clamped into `[0, 1]` by
`Math.max(0.0, Math.min(1.0, confidence))`. -/
noncomputable def calculateConfidence (path : List PathStep) : ℝ :=
  let c1 : ℝ := 1 * Real.exp (-0.1 * (path.length : ℝ))
  let c2 : ℝ := path.foldl
    (fun c step => if stepSanitized step then c * 0.3 else c) c1
  max 0 (min 1 c2)

/-! ## AST traversal (`traverseAST`)

A heterogeneous SWC node is abstracted to its `type` discriminator and the
ordered list of object-valued children the `for (const key in node)` loop
recurses into (metadata keys `span`/`ctxt` are skipped and carry no children).
The visitor's effect is modelled as the list of `CallExpression` nodes on
which `visitor.visitCallExpression` fires, in visit order.  The source
function takes no depth argument and has no depth counter. -/

inductive ASTNode where
  | node (ntype : String) (children : List ASTNode)

mutual

/-- `traverseAST(node, visitor, nodePath)`: visit, extend the path, recurse
into every child. -/
def traverseAST : ASTNode → List String → List ASTNode
  | ASTNode.node t children, nodePath =>
    (if t == "CallExpression" then [ASTNode.node t children] else []) ++
      traverseList children (nodePath ++ [t])

/-- `child.forEach(c => traverseAST(c, visitor, currentPath))`. -/
def traverseList : List ASTNode → List String → List ASTNode
  | [], _ => []
  | c :: cs, p => traverseAST c p ++ traverseList cs p

end

mutual

/-- Height of a node (root counts 1). -/
def heightNode : ASTNode → Nat
  | ASTNode.node _ children => 1 + heightList children

/-- Maximum height over a child list. -/
def heightList : List ASTNode → Nat
  | [] => 0
  | c :: cs => max (heightNode c) (heightList cs)

end

/-- A linear tree of depth `n + 1` whose single leaf is a `CallExpression`
wrapped in `n` ordinary nodes. -/
def chain : Nat → ASTNode
  | 0 => ASTNode.node "CallExpression" []
  | n + 1 => ASTNode.node "Other" [chain n]

/-! ## Association-list lemmas (JS `Map` semantics) -/

theorem mapGet_mapSet_self {α : Type} (m : List (String × α)) (k : String)
    (v : α) : mapGet (mapSet m k v) k = some v := by
  induction m with
  | nil => simp [mapSet, mapGet]
  | cons kv t ih =>
    by_cases h : kv.1 = k
    · simp [mapSet, mapGet, h]
    · simp [mapSet, mapGet, h, ih]

theorem mapGet_mapSet_ne {α : Type} (m : List (String × α)) (k : String)
    (v : α) (k' : String) (h : k' ≠ k) :
    mapGet (mapSet m k v) k' = mapGet m k' := by
  induction m with
  | nil => simp [mapSet, mapGet, Ne.symm h]
  | cons kv t ih =>
    by_cases hk : kv.1 = k
    · subst hk
      simp [mapSet, mapGet, Ne.symm h]
    · by_cases hk' : kv.1 = k'
      · simp [mapSet, mapGet, hk, hk', h]
      · simp [mapSet, mapGet, hk, hk', ih]

theorem mapGet_eq_none_iff {α : Type} (m : List (String × α)) (k : String) :
    mapGet m k = none ↔ k ∉ m.map Prod.fst := by
  induction m with
  | nil => simp [mapGet]
  | cons kv t ih =>
    by_cases h : kv.1 = k
    · simp [mapGet, h]
    · simp [mapGet, h, ih, Ne.symm h]

theorem mapSet_of_not_mem {α : Type} (m : List (String × α)) (k : String)
    (v : α) (h : k ∉ m.map Prod.fst) : mapSet m k v = m ++ [(k, v)] := by
  induction m with
  | nil => simp [mapSet]
  | cons kv t ih =>
    simp only [List.map_cons, List.mem_cons, not_or] at h
    simp [mapSet, Ne.symm h.1, ih h.2]

theorem mapSet_eq_update {α : Type} (m : List (String × α)) (k : String)
    (v : α) (hnd : (m.map Prod.fst).Nodup) (hm : k ∈ m.map Prod.fst) :
    mapSet m k v = m.map (fun q => if q.1 = k then (k, v) else q) := by
  induction m with
  | nil => simp at hm
  | cons kv t ih =>
    simp only [List.map_cons, List.nodup_cons] at hnd
    by_cases h : kv.1 = k
    · subst h
      have : ∀ q ∈ t, (if q.1 = kv.1 then (kv.1, v) else q) = q := by
        intro q hq
        have : q.1 ≠ kv.1 := by
          intro he
          exact hnd.1 (he ▸ List.mem_map_of_mem Prod.fst hq)
        simp [this]
      simp [mapSet, List.map_congr_left this]
    · have hm' : k ∈ t.map Prod.fst := by
        rcases List.mem_cons.mp hm with he | ht
        · exact absurd he.symm h
        · exact ht
      simp [mapSet, h, ih hnd.2 hm']

theorem mapGet_of_mem_nodup {α : Type} (m : List (String × α))
    (q : String × α) (hnd : (m.map Prod.fst).Nodup) (hq : q ∈ m) :
    mapGet m q.1 = some q.2 := by
  induction m with
  | nil => simp at hq
  | cons kv t ih =>
    simp only [List.map_cons, List.nodup_cons] at hnd
    rcases List.mem_cons.mp hq with he | ht
    · subst he
      simp [mapGet]
    · have hne : kv.1 ≠ q.1 := by
        intro he
        exact hnd.1 (he ▸ List.mem_map_of_mem Prod.fst ht)
      simp [mapGet, hne, ih hnd.2 ht]

/-! ## C5 — URL parameterization of `/users/123` -/

/-- C5: `parameterizeURL('/users/123')` yields template `/users/{userId}` and
exactly one parameter `{name: "userId", location: "path",
param_type: "integer", required: true}`; in general `inferParameterName`
derives the name from the previous segment by stripping a trailing `s` and
appending `Id`, and returns `id` when the matched segment is first. -/
theorem C5_parameterize_users123 :
    (parameterizeURL "/users/123" =
      ("/users/\x7buserId\x7d",
       [{ name := "userId", location := "path", param_type := "integer",
          required := true }])) ∧
    (∀ segments idx, inferParameterName segments (idx + 1) =
      (if strEndsWithChar (segments.getD idx "") 's' then
        strDropLast (segments.getD idx "") ++ "Id"
       else segments.getD idx "" ++ "Id")) ∧
    (∀ segments, inferParameterName segments 0 = "id") := by
  refine ⟨by decide, ?_, ?_⟩
  · intro segments idx
    simp [inferParameterName]
  · intro segments
    simp [inferParameterName]

/-! ## C9 — template-literal builder: `raw` equals `template` -/

/-- C9: for every interpolated-string URL expression the builder emits
`url_raw` byte-for-byte identical to `url_template` (the source sets
`raw: template`), so the original `${...}` syntax is never reconstructed. -/
theorem C9_raw_eq_template (quasis : List Quasi) (expressions : List MExpr) :
    (parseTemplateLiteral quasis expressions).raw =
      (parseTemplateLiteral quasis expressions).template := rfl

/-! ## C8 — `taint_source` consults only the chain root -/

/-- C8 counterexample: in `user.props.id` the segment `props` matches the
suspect list (so the claimed root-or-any-segment rule says `true`), but
`isTaintedExpression` tests only the root `user` and returns `false`. -/
theorem C8_counterexample :
    specRootOrAnySegmentTainted
        (MExpr.member (MExpr.member (MExpr.ident "user") (MExpr.ident "props"))
          (MExpr.ident "id")) = true ∧
    isTaintedExpression
        (MExpr.member (MExpr.member (MExpr.ident "user") (MExpr.ident "props"))
          (MExpr.ident "id")) = false := by
  decide

/-- C8 (amended): `taint_source` is true iff the expression is a
member expression whose ROOT object identifier's name contains one of the
suspect identifiers as a substring; non-root segment names are never
consulted. -/
theorem C8_root_only (e : MExpr) :
    isTaintedExpression e = true ↔
      ((∃ o p, e = MExpr.member o p) ∧
       ∃ s ∈ taintSources,
         strIncludes (getMemberExpressionRoot e) s = true) := by
  cases e with
  | ident v => simp [isTaintedExpression]
  | other => simp [isTaintedExpression]
  | member o p =>
    constructor
    · intro h
      refine ⟨⟨o, p, rfl⟩, ?_⟩
      simpa [isTaintedExpression, List.any_eq_true] using h
    · rintro ⟨-, h⟩
      simpa [isTaintedExpression, List.any_eq_true] using h

/-! ## C10 — falsy header literals become `{dynamic}` -/

/-- C10: in header extraction, a property whose literal value is falsy is
recorded as the placeholder `{dynamic}` exactly as if it were a non-literal
value; only a truthy literal value is recorded verbatim. -/
theorem C10_falsy_headers (props : List HProp) (p : HProp) (v : JSVal)
    (hv : p.valueLit = some v) :
    (v.truthy = false →
      extractHeaders (HNode.obj (props ++ [p])) =
        extractHeaders (HNode.obj (props ++ [{ p with valueLit := none }]))) ∧
    (v.truthy = true → ∀ k, hpropKey p = some k → strTruthy k = true →
      extractHeaders (HNode.obj (props ++ [p])) =
        mapSet (extractHeaders (HNode.obj props)) k v) := by
  constructor
  · intro hf
    have hval : hpropValue p = hpropValue { p with valueLit := none } := by
      simp [hpropValue, hv, hf]
    have hstep : ∀ h, headerStep h p = headerStep h { p with valueLit := none } := by
      intro h
      cases hpk : hpropKey p with
      | none =>
        have hpk' : hpropKey { p with valueLit := none } = none := hpk
        simp [headerStep, hpk, hpk']
      | some k =>
        have hpk' : hpropKey { p with valueLit := none } = some k := hpk
        simp [headerStep, hpk, hpk', hval]
    simp only [extractHeaders, List.foldl_append, List.foldl_cons,
      List.foldl_nil]
    exact hstep _
  · intro ht k hk hkt
    simp only [extractHeaders, List.foldl_append, List.foldl_cons,
      List.foldl_nil]
    simp [headerStep, hk, hkt, hpropValue, hv, ht]

/-! ## C4 — `propagateTaint` contract -/

/-- C4: `propagateTaint` is a no-op when `fromVar` is not currently tainted;
otherwise it taints `toVar`, copies the origin `sourceName` forward (not the
name of `fromVar` itself), appends `fromVar` to the accumulated dependency
list without discarding it, and appends exactly one dataflow edge. -/
theorem C4_propagate (st : AnalyzerState) (fromVar toVar op : String)
    (loc : Option Loc) :
    (isTainted st fromVar = false →
      propagateTaint st fromVar toVar op loc = st) ∧
    (∀ ft, mapGet st.taintState fromVar = some ft → ft.isTainted = true →
      ∃ tt,
        mapGet (propagateTaint st fromVar toVar op loc).taintState toVar =
          some tt ∧
        tt.isTainted = true ∧
        tt.sourceName = ft.sourceName ∧
        tt.dependencies =
          ((mapGet st.taintState toVar).getD
            { name := toVar, isTainted := false }).dependencies ++ [fromVar] ∧
        (propagateTaint st fromVar toVar op loc).dataflowEdges =
          st.dataflowEdges ++
            [{ efrom := fromVar, eto := toVar, operation := op,
               location := loc }]) := by
  constructor
  · intro h
    cases hg : mapGet st.taintState fromVar with
    | none => simp [propagateTaint, hg]
    | some ft =>
      have hT : ft.isTainted = false := by
        simpa [isTainted, hg] using h
      simp [propagateTaint, hg, hT]
  · intro ft hg hT
    have hstate : (propagateTaint st fromVar toVar op loc) =
        { taintState := mapSet st.taintState toVar
            { (mapGet st.taintState toVar).getD
                { name := toVar, isTainted := false } with
              isTainted := true, sourceName := ft.sourceName,
              operation := some op, location := loc,
              dependencies :=
                ((mapGet st.taintState toVar).getD
                  { name := toVar, isTainted := false }).dependencies ++
                  [fromVar] },
          dataflowEdges := st.dataflowEdges ++
            [{ efrom := fromVar, eto := toVar, operation := op,
               location := loc }] } := by
      simp [propagateTaint, hg, hT]
    refine ⟨{ (mapGet st.taintState toVar).getD
                { name := toVar, isTainted := false } with
              isTainted := true, sourceName := ft.sourceName,
              operation := some op, location := loc,
              dependencies :=
                ((mapGet st.taintState toVar).getD
                  { name := toVar, isTainted := false }).dependencies ++
                  [fromVar] },
            ?_, rfl, rfl, rfl, ?_⟩
    · rw [hstate]
      exact mapGet_mapSet_self _ _ _
    · rw [hstate]

/-- C4 witness: after marking `x` tainted from `req.params` and propagating
`x → y`, the variable `y` is tainted. -/
theorem C4_propagate_witness :
    isTainted
      (propagateTaint
        (markTainted emptyAnalyzer "x" (some "req.params") "assignment" none)
        "x" "y" "assignment" none) "y" = true := by
  obtain ⟨tt, hget, hT, -⟩ :=
    (C4_propagate
      (markTainted emptyAnalyzer "x" (some "req.params") "assignment" none)
      "x" "y" "assignment" none).2
      { name := "x", isTainted := true, isSource := true,
        sourceName := some "req.params", operation := some "assignment",
        location := none, dependencies := [] }
      (by decide) rfl
  simp [isTainted, hget, hT]

/-! ## C1 — sink detection is exact, not substring-based -/

/-- `sinkStep` never changes whether a variable is tainted. -/
theorem sinkStep_isTainted (cn : String) (s : AnalyzerState) (a : MExpr)
    (v : String) : isTainted (sinkStep cn s a) v = isTainted s v := by
  cases a with
  | member o p => rfl
  | other => rfl
  | ident w =>
    by_cases hT : isTainted s w
    · cases hg : mapGet s.taintState w with
      | none => simp [isTainted, hg] at hT
      | some t =>
        have ht' : t.isTainted = true := by simpa [isTainted, hg] using hT
        by_cases hv : v = w
        · subst hv
          simp [sinkStep, hT, hg, ht', isTainted, mapGet_mapSet_self]
        · simp [sinkStep, hT, hg, ht', isTainted,
            mapGet_mapSet_ne _ _ _ _ hv]
    · simp [sinkStep, hT]

/-- Effect of one `sinkStep` on the `reachesSink` flag. -/
theorem sinkStep_reaches (cn : String) (s : AnalyzerState) (a : MExpr)
    (v : String) :
    reachesSinkB (sinkStep cn s a) v = true ↔
      (reachesSinkB s v = true ∨
        (a = MExpr.ident v ∧ isTainted s v = true)) := by
  cases a with
  | member o p => simp [sinkStep]
  | other => simp [sinkStep]
  | ident w =>
    by_cases hT : isTainted s w
    · cases hg : mapGet s.taintState w with
      | none => simp [isTainted, hg] at hT
      | some t =>
        have ht' : t.isTainted = true := by simpa [isTainted, hg] using hT
        by_cases hv : v = w
        · subst hv
          simp [sinkStep, hT, hg, ht', reachesSinkB, mapGet_mapSet_self]
        · have hne : MExpr.ident w = MExpr.ident v ↔ False := by
            simp [Ne.symm hv]
          simp [sinkStep, hT, hg, ht', reachesSinkB,
            mapGet_mapSet_ne _ _ _ _ hv, hne]
    · by_cases hv : v = w
      · subst hv
        simp [sinkStep, hT]
      · have hne : MExpr.ident w = MExpr.ident v ↔ False := by
          simp [Ne.symm hv]
        simp [sinkStep, hT, hne]

/-- Effect of the whole argument loop on the `reachesSink` flag. -/
theorem sinkFold_reaches (cn : String) (args : List MExpr)
    (s : AnalyzerState) (v : String) :
    reachesSinkB (args.foldl (sinkStep cn) s) v = true ↔
      (reachesSinkB s v = true ∨
        (MExpr.ident v ∈ args ∧ isTainted s v = true)) := by
  induction args generalizing s with
  | nil => simp
  | cons a t ih =>
    rw [List.foldl_cons, ih (sinkStep cn s a), sinkStep_reaches,
      sinkStep_isTainted]
    constructor
    · rintro ((h | h) | ⟨hm, hT⟩)
      · exact Or.inl h
      · exact Or.inr ⟨h.1 ▸ List.mem_cons_self a t, h.2⟩
      · exact Or.inr ⟨List.mem_cons_of_mem a hm, hT⟩
    · rintro (h | ⟨hm, hT⟩)
      · exact Or.inl (Or.inl h)
      · rcases List.mem_cons.mp hm with he | ht
        · exact Or.inl (Or.inr ⟨he.symm, hT⟩)
        · exact Or.inr ⟨ht, hT⟩

/-- C1 counterexample: with `x` tainted, the call `axios.get(x)` has a
flattened callee name (`axios.get`) that CONTAINS the sink fragment `axios`,
yet `visitCallExpression` leaves the state untouched and `x` never reaches a
sink — detection is not substring-based. -/
theorem C1_counterexample :
    (sinks.any (fun s =>
      strIncludes
        (getCalleeName (MExpr.member (MExpr.ident "axios") (MExpr.ident "get")))
        s) = true) ∧
    (visitCallExprTaint
        (markTainted emptyAnalyzer "x" (some "req.params") "assignment" none)
        (MExpr.member (MExpr.ident "axios") (MExpr.ident "get"))
        [MExpr.ident "x"] =
      markTainted emptyAnalyzer "x" (some "req.params") "assignment" none) ∧
    (reachesSinkB
        (visitCallExprTaint
          (markTainted emptyAnalyzer "x" (some "req.params") "assignment" none)
          (MExpr.member (MExpr.ident "axios") (MExpr.ident "get"))
          [MExpr.ident "x"]) "x" = false) := by
  decide

/-- C1 (amended): sink detection compares the flattened callee name by EXACT
membership in the sink set; a non-member callee leaves the state unchanged,
and for a member callee a variable newly reaches the sink exactly when it is
a tainted bare-identifier argument. -/
theorem C1_exact_sink_match (st : AnalyzerState) (callee : MExpr)
    (args : List MExpr) (v : String) :
    (sinks.contains (getCalleeName callee) = false →
      visitCallExprTaint st callee args = st) ∧
    (sinks.contains (getCalleeName callee) = true →
      (reachesSinkB (visitCallExprTaint st callee args) v = true ↔
        (reachesSinkB st v = true ∨
          (MExpr.ident v ∈ args ∧ isTainted st v = true)))) := by
  constructor
  · intro h
    have h' : getCalleeName callee ∉ sinks := by simpa using h
    unfold visitCallExprTaint
    simp [h']
  · intro h
    have h' : getCalleeName callee ∈ sinks := by simpa using h
    have hrw : visitCallExprTaint st callee args =
        args.foldl (sinkStep (getCalleeName callee)) st := by
      unfold visitCallExprTaint
      simp [h']
    rw [hrw]
    exact sinkFold_reaches _ _ _ _

/-- C1 witness: a call to a name outside the sink set is a no-op, and a
`fetch(x)` call with tainted `x` marks `x` as reaching the sink. -/
theorem C1_exact_sink_match_witness :
    (visitCallExprTaint emptyAnalyzer (MExpr.ident "notASink") [] =
      emptyAnalyzer) ∧
    (reachesSinkB
      (visitCallExprTaint
        (markTainted emptyAnalyzer "x" (some "req.params") "assignment" none)
        (MExpr.ident "fetch") [MExpr.ident "x"]) "x" = true) :=
  ⟨(C1_exact_sink_match emptyAnalyzer (MExpr.ident "notASink") [] "x").1
      (by decide),
   ((C1_exact_sink_match
      (markTainted emptyAnalyzer "x" (some "req.params") "assignment" none)
      (MExpr.ident "fetch") [MExpr.ident "x"] "x").2 (by decide)).mpr
      (Or.inr ⟨List.mem_cons_self _ _, by decide⟩)⟩

/-! ## C2 — `reaches_sink` is NOT monotonic across `markTainted` -/

/-- C2 counterexample: `x` reaches the sink after `fetch(x)`, but a later
`markTainted` of the same name replaces the record with a fresh object and
the flag reads false again. -/
theorem C2_counterexample :
    (reachesSinkB
      (visitCallExprTaint
        (markTainted emptyAnalyzer "x" (some "req.params") "assignment" none)
        (MExpr.ident "fetch") [MExpr.ident "x"]) "x" = true) ∧
    (reachesSinkB
      (markTainted
        (visitCallExprTaint
          (markTainted emptyAnalyzer "x" (some "req.params") "assignment" none)
          (MExpr.ident "fetch") [MExpr.ident "x"])
        "x" (some "req.query") "assignment" none) "x" = false) := by
  decide

/-- C2 (amended): once `reaches_sink` is true for a variable it stays true
under every subsequent analyzer operation EXCEPT a `markTainted` of that same
variable name, which resets the record and clears the flag. -/
theorem C2_reaches_sink_persists (st : AnalyzerState) (v : String) (o : TOp)
    (h : reachesSinkB st v = true)
    (hmark : ∀ s op loc, o ≠ TOp.mark v s op loc) :
    reachesSinkB (applyOp st o) v = true := by
  cases o with
  | mark w s op loc =>
    have hw : v ≠ w := by
      intro he
      exact hmark s op loc (by rw [he])
    have hget : mapGet (markTainted st w s op loc).taintState v =
        mapGet st.taintState v := by
      simp only [markTainted]
      exact mapGet_mapSet_ne _ _ _ _ hw
    simpa [applyOp, reachesSinkB, hget] using h
  | prop f t op loc =>
    cases hg : mapGet st.taintState f with
    | none => simpa [applyOp, propagateTaint, hg] using h
    | some ft =>
      by_cases hT : ft.isTainted
      · by_cases hv : t = v
        · subst hv
          cases hgt : mapGet st.taintState t with
          | none => simp [reachesSinkB, hgt] at h
          | some tv =>
            have htv : tv.reachesSink = true := by
              simpa [reachesSinkB, hgt] using h
            simp [applyOp, propagateTaint, hg, hT, hgt, reachesSinkB,
              mapGet_mapSet_self, htv]
        · have hv' : v ≠ t := Ne.symm hv
          simpa [applyOp, propagateTaint, hg, hT, reachesSinkB,
            mapGet_mapSet_ne _ _ _ _ hv'] using h
      · simpa [applyOp, propagateTaint, hg, hT] using h
  | call callee args =>
    by_cases hc : getCalleeName callee ∈ sinks
    · have hrw : applyOp st (TOp.call callee args) =
          args.foldl (sinkStep (getCalleeName callee)) st := by
        show visitCallExprTaint st callee args = _
        unfold visitCallExprTaint
        simp [hc]
      rw [hrw]
      exact (sinkFold_reaches _ _ _ _).mpr (Or.inl h)
    · have hrw : applyOp st (TOp.call callee args) = st := by
        show visitCallExprTaint st callee args = _
        unfold visitCallExprTaint
        simp [hc]
      rw [hrw]
      exact h

/-- C2 witness: a sink-reaching `x` keeps the flag across a propagation
between two other variables. -/
theorem C2_reaches_sink_persists_witness :
    reachesSinkB
      (applyOp
        (visitCallExprTaint
          (markTainted emptyAnalyzer "x" (some "req.params") "assignment" none)
          (MExpr.ident "fetch") [MExpr.ident "x"])
        (TOp.prop "a" "b" "assignment" none)) "x" = true :=
  C2_reaches_sink_persists _ "x" (TOp.prop "a" "b" "assignment" none)
    (by decide) (fun s op loc hc => TOp.noConfusion hc)

/-! ## C3 — the traversal has no depth limit -/

/-- `traverseAST` visits the `CallExpression` leaf of `chain n` whatever the
starting path is: no configured limit ever aborts a subtree. -/
theorem traverse_chain (n : Nat) (p : List String) :
    traverseAST (chain n) p = [ASTNode.node "CallExpression" []] := by
  induction n generalizing p with
  | zero =>
    simp [chain, traverseAST, traverseList]
  | succ k ih =>
    have hne : ("Other" == "CallExpression") = false := by decide
    simp [chain, traverseAST, traverseList, hne, ih]

/-- C3: `traverseAST` takes no depth parameter and keeps no depth counter —
for every `n` it descends through `n` nested wrappers (a tree of height
`n + 1`) and still visits the innermost `CallExpression`, so no configured
depth limit exists after which a subtree would be aborted. -/
theorem C3_no_depth_bound (n : Nat) :
    heightNode (chain n) = n + 1 ∧
    traverseAST (chain n) [] = [ASTNode.node "CallExpression" []] := by
  constructor
  · induction n with
    | zero => simp [chain, heightNode, heightList]
    | succ k ih =>
      simp [chain, heightNode, heightList, ih]
      omega
  · exact traverse_chain n []

/-! ## C6 — deduplication by `(method, url_template)` -/

/-- Well-formedness of the `seen` accumulator: stored keys are the records'
own keys, and keys are pairwise distinct. -/
def accWF (acc : List (String × EndpointRecord)) : Prop :=
  (∀ q ∈ acc, q.1 = keyOf q.2) ∧ (acc.map Prod.fst).Nodup

theorem accWF_dedupStep (acc : List (String × EndpointRecord))
    (ep : EndpointRecord) (h : accWF acc) : accWF (dedupStep acc ep) := by
  cases hg : mapGet acc (keyOf ep) with
  | none =>
    have hstep : dedupStep acc ep = mapSet acc (keyOf ep) ep := by
      simp only [dedupStep, hg]
    rw [hstep]
    have hnm : keyOf ep ∉ acc.map Prod.fst := (mapGet_eq_none_iff _ _).mp hg
    rw [mapSet_of_not_mem _ _ _ hnm]
    constructor
    · intro q hq
      rcases List.mem_append.mp hq with hl | hr
      · exact h.1 q hl
      · simp at hr
        subst hr
        rfl
    · rw [List.map_append]
      refine List.Nodup.append h.2 (by simp) ?_
      intro a ha hb
      simp at hb
      subst hb
      exact hnm ha
  | some existing =>
    have hstep : dedupStep acc ep = mapSet acc (keyOf ep)
        { existing with evidence := existing.evidence ++ ep.evidence } := by
      simp only [dedupStep, hg]
    rw [hstep]
    have hm : keyOf ep ∈ acc.map Prod.fst := by
      by_contra hnm
      rw [(mapGet_eq_none_iff _ _).mpr hnm] at hg
      cases hg
    rw [mapSet_eq_update _ _ _ h.2 hm]
    constructor
    · intro q hq
      rcases List.mem_map.mp hq with ⟨q0, hq0, hqe⟩
      by_cases he : q0.1 = keyOf ep
      · have hqeq : q = (keyOf ep, { existing with
            evidence := existing.evidence ++ ep.evidence }) := by
          rw [← hqe]; simp [he]
        have hq0key : q0.1 = keyOf q0.2 := h.1 q0 hq0
        have hgq : mapGet acc q0.1 = some q0.2 := mapGet_of_mem_nodup _ _ h.2 hq0
        rw [he, hg] at hgq
        have hex : existing = q0.2 := Option.some.inj hgq
        subst hqeq
        show keyOf ep =
          keyOf { existing with evidence := existing.evidence ++ ep.evidence }
        have hk : keyOf { existing with
            evidence := existing.evidence ++ ep.evidence } = keyOf existing := rfl
        rw [hk, hex, ← hq0key, he]
      · have hqeq : q = q0 := by rw [← hqe]; simp [he]
        rw [hqeq]
        exact h.1 q0 hq0
    · have : (acc.map (fun q => if q.1 = keyOf ep then
          (keyOf ep, { existing with
            evidence := existing.evidence ++ ep.evidence }) else q)).map Prod.fst =
          acc.map Prod.fst := by
        rw [List.map_map]
        apply List.map_congr_left
        intro q hq
        by_cases he : q.1 = keyOf ep
        · simp [he]
        · simp [he]
      rw [this]
      exact h.2

theorem accWF_foldl (eps : List EndpointRecord)
    (acc : List (String × EndpointRecord)) (h : accWF acc) :
    accWF (List.foldl dedupStep acc eps) := by
  induction eps generalizing acc with
  | nil => exact h
  | cons e t ih => exact ih _ (accWF_dedupStep _ _ h)

theorem accWF_dedupAcc (eps : List EndpointRecord) : accWF (dedupAcc eps) :=
  accWF_foldl eps [] ⟨by simp, by simp⟩

/-- The retained records' keys are exactly the accumulator's stored keys. -/
theorem dedup_keys (eps : List EndpointRecord) :
    (deduplicateEndpoints eps).map keyOf = (dedupAcc eps).map Prod.fst := by
  unfold deduplicateEndpoints
  rw [List.map_map]
  symm
  apply List.map_congr_left
  intro q hq
  exact (accWF_dedupAcc eps).1 q hq
theorem C10_falsy_headers_witness :
    (extractHeaders (HNode.obj ([] ++ [⟨none, some "X-Token", some (JSVal.str "")⟩])) =
      extractHeaders (HNode.obj ([] ++ [⟨none, some "X-Token", none⟩]))) ∧
    (extractHeaders (HNode.obj ([] ++ [⟨none, some "Auth", some (JSVal.str "abc")⟩])) =
      mapSet (extractHeaders (HNode.obj [])) "Auth" (JSVal.str "abc")) :=
  ⟨(C10_falsy_headers [] ⟨none, some "X-Token", some (JSVal.str "")⟩
      (JSVal.str "") rfl).1 rfl,
   (C10_falsy_headers [] ⟨none, some "Auth", some (JSVal.str "abc")⟩
      (JSVal.str "abc") rfl).2 rfl "Auth" rfl rfl⟩

/-- C6: deduplication keys candidates by `(method, url_template)`: a record
with a fresh key is appended intact; a record whose key was already seen only
appends its evidence to the retained record (all other retained records and
fields unchanged); and two same-key records fed in either order leave the
same evidence contents (as a multiset). -/
theorem C6_dedup_merge (eps : List EndpointRecord) (r r1 r2 : EndpointRecord)
    (h12 : keyOf r1 = keyOf r2) :
    (keyOf r ∉ (deduplicateEndpoints eps).map keyOf →
      deduplicateEndpoints (eps ++ [r]) = deduplicateEndpoints eps ++ [r]) ∧
    (keyOf r ∈ (deduplicateEndpoints eps).map keyOf →
      deduplicateEndpoints (eps ++ [r]) =
        (deduplicateEndpoints eps).map (fun e =>
          if keyOf e = keyOf r then
            { e with evidence := e.evidence ++ r.evidence } else e)) ∧
    (allEvidence (deduplicateEndpoints [r1, r2])).Perm
      (allEvidence (deduplicateEndpoints [r2, r1])) := by
  have hacc : dedupAcc (eps ++ [r]) = dedupStep (dedupAcc eps) r := by
    simp [dedupAcc, List.foldl_append]
  refine ⟨?_, ?_, ?_⟩
  · intro hnm
    rw [dedup_keys] at hnm
    have hg : mapGet (dedupAcc eps) (keyOf r) = none :=
      (mapGet_eq_none_iff _ _).mpr hnm
    have hstep : dedupStep (dedupAcc eps) r = mapSet (dedupAcc eps) (keyOf r) r := by
      simp only [dedupStep, hg]
    have hout : deduplicateEndpoints (eps ++ [r]) =
        (dedupAcc eps).map (fun kv => kv.2) ++ [r] := by
      unfold deduplicateEndpoints
      rw [hacc, hstep, mapSet_of_not_mem _ _ _ hnm, List.map_append]
      rfl
    rw [hout]
    rfl
  · intro hm
    rw [dedup_keys] at hm
    have hwf := accWF_dedupAcc eps
    cases hg : mapGet (dedupAcc eps) (keyOf r) with
    | none => exact absurd hm ((mapGet_eq_none_iff _ _).mp hg)
    | some existing =>
      have hstep : dedupStep (dedupAcc eps) r = mapSet (dedupAcc eps) (keyOf r)
          { existing with evidence := existing.evidence ++ r.evidence } := by
        simp only [dedupStep, hg]
      unfold deduplicateEndpoints
      rw [hacc, hstep, mapSet_eq_update _ _ _ hwf.2 hm, List.map_map,
        List.map_map]
      apply List.map_congr_left
      intro q hq
      have hqkey : q.1 = keyOf q.2 := hwf.1 q hq
      by_cases he : q.1 = keyOf r
      · have hgq : mapGet (dedupAcc eps) q.1 = some q.2 :=
          mapGet_of_mem_nodup _ _ hwf.2 hq
        rw [he, hg] at hgq
        have hex : existing = q.2 := Option.some.inj hgq
        have hkq : keyOf q.2 = keyOf r := by rw [← hqkey, he]
        have hke : keyOf existing = keyOf r := by rw [hex]; exact hkq
        simp [Function.comp, he, hkq, hke, ← hex]
      · have hkq : keyOf q.2 ≠ keyOf r := by rw [← hqkey]; exact he
        simp [Function.comp, he, hkq]
  · have hstep1 : dedupStep [] r1 = [(keyOf r1, r1)] := by
      simp [dedupStep, mapGet, mapSet]
    have hg2 : mapGet [(keyOf r1, r1)] (keyOf r2) = some r1 := by
      simp [mapGet, h12]
    have hstep2 : dedupStep [(keyOf r1, r1)] r2 =
        [(keyOf r2, { r1 with evidence := r1.evidence ++ r2.evidence })] := by
      simp only [dedupStep, hg2]
      simp [mapSet, h12]
    have e1 : deduplicateEndpoints [r1, r2] =
        [{ r1 with evidence := r1.evidence ++ r2.evidence }] := by
      show ((dedupStep (dedupStep [] r1) r2).map fun kv => kv.2) = _
      rw [hstep1, hstep2]
      rfl
    have hstep1' : dedupStep [] r2 = [(keyOf r2, r2)] := by
      simp [dedupStep, mapGet, mapSet]
    have hg2' : mapGet [(keyOf r2, r2)] (keyOf r1) = some r2 := by
      simp [mapGet, h12]
    have hstep2' : dedupStep [(keyOf r2, r2)] r1 =
        [(keyOf r1, { r2 with evidence := r2.evidence ++ r1.evidence })] := by
      simp only [dedupStep, hg2']
      simp [mapSet, h12]
    have e2 : deduplicateEndpoints [r2, r1] =
        [{ r2 with evidence := r2.evidence ++ r1.evidence }] := by
      show ((dedupStep (dedupStep [] r2) r1).map fun kv => kv.2) = _
      rw [hstep1', hstep2']
      rfl
    rw [e1, e2]
    simp only [allEvidence, List.foldr_cons, List.foldr_nil, List.append_nil]
    exact List.perm_append_comm

/-- C6 witness: a fresh-key record is appended intact, and two concrete
same-key records fed in either order leave the same evidence contents. -/
theorem C6_dedup_merge_witness :
    (deduplicateEndpoints
        ([] ++ [{ url_template := "/v1/items", url_raw := "/v1/items",
                  method := "POST", protocol := "https",
                  evidence := [⟨"code_pattern", "fetch", 3⟩] }]) =
      deduplicateEndpoints [] ++
        [{ url_template := "/v1/items", url_raw := "/v1/items",
           method := "POST", protocol := "https",
           evidence := [⟨"code_pattern", "fetch", 3⟩] }]) ∧
    (allEvidence (deduplicateEndpoints
        [{ url_template := "/api/users", url_raw := "/api/users",
           method := "GET", protocol := "https",
           evidence := [⟨"code_pattern", "fetch", 1⟩] },
         { url_template := "/api/users", url_raw := "/api/users",
           method := "GET", protocol := "https",
           evidence := [⟨"code_pattern", "axios", 2⟩] }])).Perm
      (allEvidence (deduplicateEndpoints
        [{ url_template := "/api/users", url_raw := "/api/users",
           method := "GET", protocol := "https",
           evidence := [⟨"code_pattern", "axios", 2⟩] },
         { url_template := "/api/users", url_raw := "/api/users",
           method := "GET", protocol := "https",
           evidence := [⟨"code_pattern", "fetch", 1⟩] }])) :=
  ⟨(C6_dedup_merge []
      { url_template := "/v1/items", url_raw := "/v1/items",
        method := "POST", protocol := "https",
        evidence := [⟨"code_pattern", "fetch", 3⟩] }
      { url_template := "/api/users", url_raw := "/api/users",
        method := "GET", protocol := "https",
        evidence := [⟨"code_pattern", "fetch", 1⟩] }
      { url_template := "/api/users", url_raw := "/api/users",
        method := "GET", protocol := "https",
        evidence := [⟨"code_pattern", "axios", 2⟩] } rfl).1 (by decide),
   (C6_dedup_merge []
      { url_template := "/v1/items", url_raw := "/v1/items",
        method := "POST", protocol := "https",
        evidence := [⟨"code_pattern", "fetch", 3⟩] }
      { url_template := "/api/users", url_raw := "/api/users",
        method := "GET", protocol := "https",
        evidence := [⟨"code_pattern", "fetch", 1⟩] }
      { url_template := "/api/users", url_raw := "/api/users",
        method := "GET", protocol := "https",
        evidence := [⟨"code_pattern", "axios", 2⟩] } rfl).2.2⟩

/-- C7: every reconstructed path's confidence lies in `[0, 1]`, and a path of
length 1 with no sanitizer-matching operation scores exactly
`exp(-0.1)` ≈ 0.905. -/
theorem C7_confidence (path : List PathStep) :
    (0 ≤ calculateConfidence path ∧ calculateConfidence path ≤ 1) ∧
    (path.length = 1 → (∀ s ∈ path, stepSanitized s = false) →
      calculateConfidence path = Real.exp (-0.1)) := by
  constructor
  · constructor
    · exact le_max_left _ _
    · exact max_le (by norm_num) (min_le_left _ _)
  · intro hlen hsan
    match path, hlen with
    | [s], _ =>
      have hs : stepSanitized s = false := hsan s (by simp)
      have hle : Real.exp (-0.1) ≤ 1 := by
        rw [← Real.exp_zero]
        exact Real.exp_le_exp.mpr (by norm_num)
      have hpos : (0:ℝ) ≤ Real.exp (-0.1) := (Real.exp_pos _).le
      have harg : (1 : ℝ) * Real.exp (-0.1 * (([s].length : ℕ) : ℝ)) =
          Real.exp (-0.1) := by
        norm_num
      unfold calculateConfidence
      simp only [List.foldl_cons, List.foldl_nil, hs, Bool.false_eq_true,
        if_false]
      rw [harg, min_eq_right hle, max_eq_right hpos]

/-- C7 witness: a concrete single-step unsanitized path scores `exp(-0.1)`. -/
theorem C7_confidence_witness :
    calculateConfidence [{ varName := "x", operation := some "assignment" }] =
      Real.exp (-0.1) :=
  (C7_confidence [{ varName := "x", operation := some "assignment" }]).2 rfl
    (by decide)
